import Mathlib

/-!
Verification of the `rebase-migrations` repository's Python sources against
its specification.

Two Python files are embedded:

* `src/create_test_env.py` — the synthetic test-tree generator
  (`create_migration_file`, `create_app_with_migrations`, `main`);
* `src/python/rebase_migrations/__init__.py` — the public wrapper module
  (`_expand_path`, `execute`, `dry_run`, `execute_for_app`,
  `dry_run_for_app`, `__all__`).

The compiled Rust engine (`run_rebase`, `run_rebase_for_one_app`) is not in
the sources; where a claim depends on its behaviour it is modelled from the
spec (definitions marked `Modelled from the spec:`).

Python integers are embedded as `Int`, Python strings as Lean `String`
(with some path machinery on `List Char`), and the filesystem effects of
the generator as explicit lists of (filename, content) records.
-/

/-! ## Decimal rendering of integers (Python `str` and `format(i, "04d")`) -/

/-- The decimal digit character for `n < 10` (Python digit rendering). -/
def digitChar (n : Nat) : Char := Char.ofNat (48 + n)

/-- Accumulator pass producing the decimal digits of `n` (most significant
first) in front of `acc`. -/
def natDigitsAux (n : Nat) (acc : List Char) : List Char :=
  if h : n < 10 then digitChar n :: acc
  else natDigitsAux (n / 10) (digitChar (n % 10) :: acc)
termination_by n
decreasing_by exact Nat.div_lt_self (by omega) (by omega)

/-- Decimal digit list of a natural number, as Python `str` renders it. -/
def natDigits (n : Nat) : List Char := natDigitsAux n []

/-- Python `str(i)` for an arbitrary integer. -/
def intStr (i : Int) : String :=
  if i < 0 then String.mk ('-' :: natDigits i.natAbs)
  else String.mk (natDigits i.toNat)

/-- Left pad a character list with zeros to width `w` (Python `zfill`). -/
def zfill (w : Nat) (s : List Char) : List Char :=
  List.replicate (w - s.length) '0' ++ s

/-- Python `f"{i:04d}"`: zero pad to overall width 4, the sign included. -/
def pad4 (i : Int) : String :=
  if i < 0 then String.mk ('-' :: zfill 3 (natDigits i.natAbs))
  else String.mk (zfill 4 (natDigits i.toNat))

/-- Python `range(a, b)` over integers, as a list. -/
def intRange (a b : Int) : List Int :=
  (List.range (b - a).toNat).map (fun j => a + Int.ofNat j)

/-! ## `create_test_env.py`: the migration-file generator -/

/-- `deps_str` of `create_migration_file`: renders one dependency pair as
`('app', 'mig')`. -/
def depPairStr (d : String × String) : String :=
  "('" ++ d.1 ++ "', '" ++ d.2 ++ "')"

/-- `deps_str` of `create_migration_file`: `", ".join(...)`; an empty list
renders as the empty string, matching the source's fallback. -/
def depsStr (deps : List (String × String)) : String :=
  String.intercalate ", " (deps.map depPairStr)

/-- The literal text of the generated migration file before the rendered
dependency list. -/
def contentPre : String :=
  "from django.db import migrations, models\n\n\nclass Migration(migrations.Migration):\n    dependencies = ["

/-- The literal text between the dependency list and the zero-padded model
number. -/
def contentMid : String :=
  "]\n\n    operations = [\n        migrations.CreateModel(\n            name='Model"

/-- The literal text of the generated migration file after the model
number. -/
def contentPost : String :=
  "',\n            fields=[\n                ('id', models.AutoField(primary_key=True)),\n                ('name', models.CharField(max_length=100)),\n                ('created_at', models.DateTimeField(auto_now_add=True)),\n            ],\n        ),\n    ]\n"

/-- `create_migration_file` (src/create_test_env.py): the content written for
a migration with sequence `number` and dependency list `deps`.  (The `name`
parameter of the Python function is unused in the content.) -/
def create_migration_file (number : Int) (deps : List (String × String)) : String :=
  contentPre ++ depsStr deps ++ contentMid ++ pad4 number ++ contentPost

/-- `f"{i:04d}_migration_{i}"`: the name of the i-th ordinary chain
migration. -/
def migName (i : Int) : String := pad4 i ++ "_migration_" ++ intStr i

/-- `f"app{app_number:04d}"`: the generated app's name. -/
def appName (k : Nat) : String := "app" ++ pad4 (k : Int)

/-- `f"{last_num:04d}_head_migration"` with `last_num = n - 1`. -/
def headName (n : Int) : String := pad4 (n - 1) ++ "_head_migration"

/-- `f"{last_num:04d}_feature_migration"` with `last_num = n - 1`. -/
def featureName (n : Int) : String := pad4 (n - 1) ++ "_feature_migration"

/-- One generated migration file: filename in the migrations directory, the
sequence number and declared name it was generated from, the dependency
pairs passed to `create_migration_file`, and the file content written. -/
structure MigRecord where
  filename : String
  number : Int
  migname : String
  dependencies : List (String × String)
  content : String
deriving Repr, DecidableEq

/-- The chain migration numbered `i` of app `a` (one iteration of the
generator's first loop): empty dependencies for `i = 1`, else the single
dependency on migration `i - 1` of the same app. -/
def chainRecord (a : Nat) (i : Int) : MigRecord :=
  let deps : List (String × String) :=
    if i = 1 then [] else [(appName a, migName (i - 1))]
  { filename := migName i ++ ".py"
    number := i
    migname := migName i
    dependencies := deps
    content := create_migration_file i deps }

/-- The records of the generator's first loop,
`for i in range(1, num_migrations - 1)`. -/
def chainRecords (a : Nat) (n : Int) : List MigRecord :=
  (intRange 1 (n - 1)).map (chainRecord a)

/-- The HEAD conflict migration: number `n - 1`, depending on migration
`n - 2` of the same app. -/
def headRecord (a : Nat) (n : Int) : MigRecord :=
  { filename := headName n ++ ".py"
    number := n - 1
    migname := headName n
    dependencies := [(appName a, migName (n - 1 - 1))]
    content := create_migration_file (n - 1) [(appName a, migName (n - 1 - 1))] }

/-- The feature-branch conflict migration: same number `n - 1`, same
dependency as the HEAD migration. -/
def featureRecord (a : Nat) (n : Int) : MigRecord :=
  { filename := featureName n ++ ".py"
    number := n - 1
    migname := featureName n
    dependencies := [(appName a, migName (n - 1 - 1))]
    content := create_migration_file (n - 1) [(appName a, migName (n - 1 - 1))] }

/-- All numbered migration files `create_app_with_migrations` writes into app
`a`'s migrations directory, in creation order: the chain loop, then the HEAD
migration, then the feature migration. -/
def appMigrations (a : Nat) (n : Int) : List MigRecord :=
  chainRecords a n ++ [headRecord a n, featureRecord a n]

/-- The conflicted `max_migration.txt` content written by
`create_app_with_migrations`. -/
def maxMigrationContent (n : Int) : String :=
  "<<<<<<< HEAD\n" ++ headName n ++ "\n=======\n" ++ featureName n ++ "\n>>>>>>> feature-branch"

/-- `main` (src/create_test_env.py): the generated apps, in creation order
`for i in range(1, args.apps + 1)`; each entry pairs the app's name with the
numbered migration files of its migrations directory. -/
def mainApps (apps : Nat) (n : Int) : List (String × List MigRecord) :=
  (List.range apps).map (fun j => (appName (j + 1), appMigrations (j + 1) n))

/-! ## POSIX path primitives (`os.path` as used by `_expand_path`) -/

/-- Python `str.split(sep)` for a one-character separator on a character
list: always at least one group, empty groups kept. -/
def splitOnChar (sep : Char) : List Char → List (List Char)
  | [] => [[]]
  | c :: rest =>
    if c = sep then [] :: splitOnChar sep rest
    else
      match splitOnChar sep rest with
      | [] => [[c]]
      | g :: gs => (c :: g) :: gs

/-- Python `str.split('/')` on a character list. -/
def splitSlash : List Char → List (List Char) := splitOnChar '/'

/-- Python `'/'.join(...)` on character lists. -/
def joinSlash : List (List Char) → List Char
  | [] => []
  | [g] => g
  | g :: gs => g ++ '/' :: joinSlash gs

/-- `posixpath.isabs`: the path starts with a slash. -/
def isAbsL (cs : List Char) : Bool := cs.head? = some '/'

/-- The `initial_slashes` count of `posixpath.normpath`: 2 exactly for a
double (not triple) leading slash, else 1 for any leading slash, else 0. -/
def initSlashes (cs : List Char) : Nat :=
  if cs.head? = some '/' then
    if cs.take 3 ≠ ['/', '/', '/'] ∧ cs.take 2 = ['/', '/'] then 2 else 1
  else 0

/-- The component loop of `posixpath.normpath`.  `acc` is the `new_comps`
list in reverse (most recently appended first). -/
def normLoop (hasSlash : Bool) (acc : List (List Char)) :
    List (List Char) → List (List Char)
  | [] => acc.reverse
  | comp :: rest =>
    if comp = [] ∨ comp = ['.'] then normLoop hasSlash acc rest
    else if comp ≠ ['.', '.'] ∨ (hasSlash = false ∧ acc = []) ∨
        acc.head? = some ['.', '.'] then
      normLoop hasSlash (comp :: acc) rest
    else normLoop hasSlash acc.tail rest

/-- `posixpath.normpath` on a character list. -/
def normpathL (cs : List Char) : List Char :=
  if cs = [] then ['.']
  else
    let k := initSlashes cs
    let nc := normLoop (decide (k ≠ 0)) [] (splitSlash cs)
    let p := List.replicate k '/' ++ joinSlash nc
    if p = [] then ['.'] else p

/-- `posixpath.join(a, b)` for the two-argument case used by `abspath`. -/
def joinL (a b : List Char) : List Char :=
  if isAbsL b then b
  else if a = [] ∨ a.getLast? = some '/' then a ++ b
  else a ++ '/' :: b

/-- `posixpath.abspath` relative to the working directory `cwd`. -/
def abspathL (cwd cs : List Char) : List Char :=
  if isAbsL cs then normpathL cs else normpathL (joinL cwd cs)

/-- Index of the first `'/'` in `cs`, or `cs.length` (Python
`path.find('/', 1)` adjusted as `expanduser` does when absent). -/
def findSlash : List Char → Nat
  | [] => 0
  | c :: rest => if c = '/' then 0 else findSlash rest + 1

/-- Python `str.rstrip('/')` on a character list. -/
def rstripSlash (cs : List Char) : List Char :=
  (cs.reverse.dropWhile (fun c => c = '/')).reverse

/-- The process environment `os.path` reads: the `HOME` variable (if set),
the password-database home-directory lookup for `~user` forms, and the
working directory `os.getcwd` reports. -/
structure PathEnv where
  home : Option (List Char)
  userHome : List Char → Option (List Char)
  cwd : List Char

/-- `posixpath.expanduser`: expand a leading `~` or `~user`; return the path
unchanged when it does not start with a tilde or when no home directory is
found. -/
def expanduserL (env : PathEnv) (p : List Char) : List Char :=
  if p.head? = some '~' then
    let i := 1 + findSlash (p.drop 1)
    let uh? := if i = 1 then env.home else env.userHome ((p.drop 1).take (i - 1))
    match uh? with
    | none => p
    | some uh =>
      let r := rstripSlash uh ++ p.drop i
      if r = [] then ['/'] else r
  else p

/-! ## `rebase_migrations/__init__.py`: the public wrapper module -/

/-- `_expand_path` (src/python/rebase_migrations/__init__.py): expanduser
then abspath, relative to the environment `env`. -/
def _expand_path (env : PathEnv) (path : String) : String :=
  let expanded_path := expanduserL env path.data
  let absolute_path := abspathL env.cwd expanded_path
  String.mk absolute_path

/-- One call into the compiled engine, with the exact arguments the Python
wrappers pass: `run_rebase(path, dry_run, all_dirs, json)` or
`run_rebase_for_one_app(path, dry_run, json)`. -/
inductive EngineCall where
  | runRebase (path : String) (dry_run : Bool) (all_dirs : Bool) (json : Bool)
  | runRebaseForOneApp (path : String) (dry_run : Bool) (json : Bool)
deriving Repr, DecidableEq

/-- The `dry_run` argument of an engine call. -/
def EngineCall.dryRunFlag : EngineCall → Bool
  | .runRebase _ d _ _ => d
  | .runRebaseForOneApp _ d _ => d

/-- The `json` argument of an engine call. -/
def EngineCall.jsonFlag : EngineCall → Bool
  | .runRebase _ _ _ j => j
  | .runRebaseForOneApp _ _ j => j

/-- The path argument of an engine call. -/
def EngineCall.path : EngineCall → String
  | .runRebase p _ _ _ => p
  | .runRebaseForOneApp p _ _ => p

/-- `execute(path, all_dirs=False)`: the engine call it performs. -/
def execute (env : PathEnv) (path : String) (all_dirs : Bool) : EngineCall :=
  EngineCall.runRebase (_expand_path env path) false all_dirs false

/-- `dry_run(path, all_dirs=False, json=False)`: the engine call it
performs. -/
def dry_run (env : PathEnv) (path : String) (all_dirs json : Bool) : EngineCall :=
  EngineCall.runRebase (_expand_path env path) true all_dirs json

/-- `execute_for_app(app_path)`: the engine call it performs. -/
def execute_for_app (env : PathEnv) (app_path : String) : EngineCall :=
  EngineCall.runRebaseForOneApp (_expand_path env app_path) false false

/-- `dry_run_for_app(app_path, json=False)`: the engine call it performs. -/
def dry_run_for_app (env : PathEnv) (app_path : String) (json : Bool) : EngineCall :=
  EngineCall.runRebaseForOneApp (_expand_path env app_path) true json

/-- `__all__` of the module, verbatim. -/
def moduleAll : List String :=
  ["execute", "dry_run", "execute_for_app", "dry_run_for_app"]

/-! ## The engine, modelled from the spec -/

/-- The Python `RuntimeError` the wrappers document: carries a message. -/
structure RuntimeError where
  msg : String
deriving Repr, DecidableEq

/-- Modelled from the spec: the compiled engine behind `run_rebase` and
`run_rebase_for_one_app` (a native extension module, absent from the Python
sources).  `σ` is the filesystem state, `π` the engine's `RebasePlan` data.
`plan`/`planOne` compute the plan for a whole tree (with the scan-mode flag)
or for a single unit; `applyPlan` is the Rewriter's filesystem effect;
`completes` says whether the engine can complete on the given state and
path, and `errMsg` is its distinguishable error text. -/
structure EngineModel (σ π : Type) where
  plan : σ → String → Bool → π
  planOne : σ → String → π
  applyPlan : σ → π → σ
  completes : σ → String → Bool
  errMsg : String

/-- Modelled from the spec: `run_rebase(path, dry_run, all_dirs, json)`.
If the engine cannot complete it fails with a `RuntimeError`; otherwise in
preview mode (`dry_run = true`) no filesystem mutation occurs and the plan
is only reported, while in apply mode the plan's rewrites are applied.  The
`json` flag selects the report rendering only and touches no state. -/
def run_rebase {σ π : Type} (E : EngineModel σ π) (fs : σ) (path : String)
    (dry_runFlag all_dirs json : Bool) : σ × Except RuntimeError Unit :=
  if E.completes fs path then
    if dry_runFlag then (fs, Except.ok ())
    else (E.applyPlan fs (E.plan fs path all_dirs), Except.ok ())
  else (fs, Except.error ⟨E.errMsg⟩)

/-- Modelled from the spec: `run_rebase_for_one_app(path, dry_run, json)`,
the single-unit engine entry point; same contract as `run_rebase` with the
plan computed for one unit and no scan-mode flag. -/
def run_rebase_for_one_app {σ π : Type} (E : EngineModel σ π) (fs : σ)
    (path : String) (dry_runFlag json : Bool) : σ × Except RuntimeError Unit :=
  if E.completes fs path then
    if dry_runFlag then (fs, Except.ok ())
    else (E.applyPlan fs (E.planOne fs path), Except.ok ())
  else (fs, Except.error ⟨E.errMsg⟩)

/-- `execute` run against the modelled engine: resulting filesystem state
and Python-level outcome (`Except.ok ()` is a `None` return,
`Except.error` a raised `RuntimeError`). -/
def executeSem {σ π : Type} (E : EngineModel σ π) (env : PathEnv) (fs : σ)
    (path : String) (all_dirs : Bool) : σ × Except RuntimeError Unit :=
  run_rebase E fs (_expand_path env path) false all_dirs false

/-- `dry_run` run against the modelled engine. -/
def dry_runSem {σ π : Type} (E : EngineModel σ π) (env : PathEnv) (fs : σ)
    (path : String) (all_dirs json : Bool) : σ × Except RuntimeError Unit :=
  run_rebase E fs (_expand_path env path) true all_dirs json

/-- `execute_for_app` run against the modelled engine. -/
def execute_for_appSem {σ π : Type} (E : EngineModel σ π) (env : PathEnv)
    (fs : σ) (app_path : String) : σ × Except RuntimeError Unit :=
  run_rebase_for_one_app E fs (_expand_path env app_path) false false

/-- `dry_run_for_app` run against the modelled engine. -/
def dry_run_for_appSem {σ π : Type} (E : EngineModel σ π) (env : PathEnv)
    (fs : σ) (app_path : String) (json : Bool) : σ × Except RuntimeError Unit :=
  run_rebase_for_one_app E fs (_expand_path env app_path) true json

/-! ## Support definitions for the verification -/

/-- One step of reading a decimal digit list as a number. -/
def digitStep (v : Nat) (c : Char) : Nat := v * 10 + (c.toNat - 48)

/-- The numeric value of a decimal digit list (inverse of `natDigits`). -/
def digitsVal (l : List Char) : Nat := l.foldl digitStep 0

/-- The decimal digits `1`-to-`9`-or-`0` seen as characters. -/
def isDigitCh (c : Char) : Prop := ∃ d, d < 10 ∧ c = digitChar d

/-- A path component `posixpath.normpath` keeps in an absolute path: not
empty, not `.`, not `..`, and without a slash. -/
def GoodComp (g : List Char) : Prop :=
  g ≠ [] ∧ g ≠ ['.'] ∧ g ≠ ['.', '.'] ∧ '/' ∉ g

/-- A character list that is a fully normalized absolute POSIX path: one or
two leading slashes followed by slash-joined good components. -/
def NormalAbs (cs : List Char) : Prop :=
  ∃ k nc, (k = 1 ∨ k = 2) ∧ cs = List.replicate k '/' ++ joinSlash nc ∧
    ∀ g ∈ nc, GoodComp g

/-- Following the spec's words: the chain pointer's conflicted form — two
candidate leaf names separated by the standard three-way merge conflict
delimiters, the *ours* name first under the `HEAD` label, the *theirs* name
second under the branch label. -/
def specConflictPointer (ours theirs : String) : String :=
  "<<<<<<< HEAD\n" ++ ours ++ "\n=======\n" ++ theirs ++ "\n>>>>>>> feature-branch"

/-! ## Lemmas: decimal digits -/

theorem natDigitsAux_eq_append (n : Nat) :
    ∀ acc, natDigitsAux n acc = natDigits n ++ acc := by
  induction n using Nat.strong_induction_on with
  | _ n ih =>
    intro acc
    rw [natDigits]
    conv_lhs => rw [natDigitsAux]
    conv_rhs => rw [natDigitsAux]
    by_cases h : n < 10
    · rw [dif_pos h, dif_pos h]
      rfl
    · rw [dif_neg h, dif_neg h,
        ih (n / 10) (Nat.div_lt_self (by omega) (by omega)),
        ih (n / 10) (Nat.div_lt_self (by omega) (by omega))]
      simp

theorem natDigits_eq_div (n : Nat) (h : ¬ n < 10) :
    natDigits n = natDigits (n / 10) ++ [digitChar (n % 10)] := by
  rw [natDigits, natDigitsAux, dif_neg h, natDigitsAux_eq_append]

theorem natDigits_ne_nil (n : Nat) : natDigits n ≠ [] := by
  by_cases h : n < 10
  · rw [natDigits, natDigitsAux, dif_pos h]; simp
  · rw [natDigits_eq_div n h]; simp

theorem digitChar_toNat {d : Nat} (h : d < 10) : (digitChar d).toNat = 48 + d := by
  interval_cases d <;> decide

theorem digitsVal_natDigits (n : Nat) : digitsVal (natDigits n) = n := by
  induction n using Nat.strong_induction_on with
  | _ n ih =>
    by_cases h : n < 10
    · rw [natDigits, natDigitsAux, dif_pos h]
      simp only [digitsVal, List.foldl_cons, List.foldl_nil, digitStep,
        digitChar_toNat h]
      omega
    · rw [natDigits_eq_div n h, digitsVal, List.foldl_append]
      have hv := ih (n / 10) (Nat.div_lt_self (by omega) (by omega))
      rw [digitsVal] at hv
      rw [hv]
      simp only [List.foldl_cons, List.foldl_nil, digitStep,
        digitChar_toNat (Nat.mod_lt n (by omega))]
      omega

theorem mem_natDigits {c : Char} {n : Nat} (h : c ∈ natDigits n) : isDigitCh c := by
  induction n using Nat.strong_induction_on with
  | _ n ih =>
    by_cases h10 : n < 10
    · rw [natDigits, natDigitsAux, dif_pos h10] at h
      simp at h
      exact ⟨n, h10, h⟩
    · rw [natDigits_eq_div n h10] at h
      rcases List.mem_append.mp h with h1 | h2
      · exact ih (n / 10) (Nat.div_lt_self (by omega) (by omega)) h1
      · simp at h2
        exact ⟨n % 10, Nat.mod_lt n (by omega), h2⟩

theorem digitsVal_zeros_append (k : Nat) (l : List Char) :
    digitsVal (List.replicate k '0' ++ l) = digitsVal l := by
  induction k with
  | zero => rfl
  | succ m ihm =>
    rw [List.replicate_succ, List.cons_append]
    simpa [digitsVal, digitStep] using ihm

theorem digitsVal_pad4 (i : Int) (h : 0 ≤ i) :
    digitsVal (pad4 i).data = i.toNat := by
  rw [pad4, if_neg (by omega)]
  show digitsVal (zfill 4 (natDigits i.toNat)) = i.toNat
  rw [zfill, digitsVal_zeros_append, digitsVal_natDigits]

theorem pad4_inj {i j : Int} (hi : 0 ≤ i) (hj : 0 ≤ j) (h : pad4 i = pad4 j) :
    i = j := by
  have h2 : digitsVal (pad4 i).data = digitsVal (pad4 j).data := by rw [h]
  rw [digitsVal_pad4 i hi, digitsVal_pad4 j hj] at h2
  omega

theorem isDigitCh_ne (c : Char) (h : isDigitCh c) :
    c ≠ '_' ∧ c ≠ '\n' ∧ c ≠ 'n' ∧ c ≠ '/' ∧ c ≠ '~' := by
  obtain ⟨d, hd, rfl⟩ := h
  interval_cases d <;> refine ⟨by decide, by decide, by decide, by decide, by decide⟩

/-! ## Lemmas: strings and generated names -/

theorem data_append (a b : String) : (a ++ b).data = a.data ++ b.data := rfl

theorem mem_pad4 {c : Char} {i : Int} (h : c ∈ (pad4 i).data) :
    isDigitCh c ∨ c = '-' := by
  rw [pad4] at h
  by_cases hi : i < 0
  · rw [if_pos hi] at h
    rcases List.mem_cons.mp h with h1 | h2
    · exact Or.inr h1
    · rcases List.mem_append.mp h2 with h3 | h4
      · exact Or.inl ⟨0, by omega, by simpa using (List.eq_of_mem_replicate h3)⟩
      · exact Or.inl (mem_natDigits h4)
  · rw [if_neg hi] at h
    rcases List.mem_append.mp h with h3 | h4
    · exact Or.inl ⟨0, by omega, by simpa using (List.eq_of_mem_replicate h3)⟩
    · exact Or.inl (mem_natDigits h4)

theorem mem_intStr {c : Char} {i : Int} (hi : 0 ≤ i)
    (h : c ∈ (intStr i).data) : isDigitCh c := by
  rw [intStr, if_neg (by omega)] at h
  exact mem_natDigits h

theorem intStr_ne_nil (i : Int) : (intStr i).data ≠ [] := by
  rw [intStr]
  by_cases hi : i < 0
  · rw [if_pos hi]; simp
  · rw [if_neg hi]; exact natDigits_ne_nil _

theorem intStr_inj {i j : Int} (hi : 0 ≤ i) (hj : 0 ≤ j)
    (h : intStr i = intStr j) : i = j := by
  rw [intStr, intStr, if_neg (by omega), if_neg (by omega)] at h
  have hd : natDigits i.toNat = natDigits j.toNat := congrArg String.data h
  have := congrArg digitsVal hd
  rw [digitsVal_natDigits, digitsVal_natDigits] at this
  omega

theorem takeWhile_ne_underscore (l r : List Char)
    (hl : ∀ a ∈ l, a ≠ '_') :
    (l ++ '_' :: r).takeWhile (fun c => c ≠ '_') = l := by
  induction l with
  | nil => simp
  | cons x xs ihx =>
    rw [List.cons_append,
      List.takeWhile_cons_of_pos (by simpa using hl x (by simp)),
      ihx (fun a ha => hl a (List.mem_cons_of_mem x ha))]

theorem rev_token (pre tok : List Char) (htok : ∀ a ∈ tok, a ≠ '_') :
    ((pre ++ '_' :: tok).reverse.takeWhile (fun c => c ≠ '_')) = tok.reverse := by
  rw [List.reverse_append, List.reverse_cons, List.append_assoc,
    List.cons_append, List.nil_append]
  exact takeWhile_ne_underscore tok.reverse pre.reverse
    (fun a ha => htok a (List.mem_reverse.mp ha))

theorem migName_data (i : Int) :
    (migName i).data = ((pad4 i).data ++ "_migration".data) ++ '_' :: (intStr i).data := by
  rw [migName]
  simp only [data_append, List.append_assoc]
  rfl

theorem headName_data (n : Int) :
    (headName n).data = ((pad4 (n - 1)).data ++ "_head".data) ++ '_' :: "migration".data := by
  rw [headName]
  simp only [data_append, List.append_assoc]
  rfl

theorem featureName_data (n : Int) :
    (featureName n).data = ((pad4 (n - 1)).data ++ "_feature".data) ++ '_' :: "migration".data := by
  rw [featureName]
  simp only [data_append, List.append_assoc]
  rfl

theorem migName_inj {i j : Int} (hi : 0 ≤ i) (hj : 0 ≤ j)
    (h : migName i = migName j) : i = j := by
  have hd : (migName i).data = (migName j).data := congrArg String.data h
  rw [migName_data, migName_data] at hd
  have hr := congrArg (fun l : List Char => l.reverse.takeWhile (fun c => c ≠ '_')) hd
  simp only at hr
  rw [rev_token _ _ (fun a ha => (isDigitCh_ne a (mem_intStr hi ha)).1),
    rev_token _ _ (fun a ha => (isDigitCh_ne a (mem_intStr hj ha)).1)] at hr
  exact intStr_inj hi hj (String.ext (List.reverse_injective hr))

theorem migName_ne_headName {i n : Int} (hi : 0 ≤ i) :
    migName i ≠ headName n := by
  intro h
  have hd : (migName i).data = (headName n).data := congrArg String.data h
  rw [migName_data, headName_data] at hd
  have hr := congrArg (fun l : List Char => l.reverse.takeWhile (fun c => c ≠ '_')) hd
  simp only at hr
  rw [rev_token _ _ (fun a ha => (isDigitCh_ne a (mem_intStr hi ha)).1),
    rev_token _ _ (by decide)] at hr
  have heq : (intStr i).data = "migration".data := List.reverse_injective hr
  have hmem : 'n' ∈ (intStr i).data := by rw [heq]; decide
  exact (isDigitCh_ne 'n' (mem_intStr hi hmem)).2.2.1 rfl

theorem migName_ne_featureName {i n : Int} (hi : 0 ≤ i) :
    migName i ≠ featureName n := by
  intro h
  have hd : (migName i).data = (featureName n).data := congrArg String.data h
  rw [migName_data, featureName_data] at hd
  have hr := congrArg (fun l : List Char => l.reverse.takeWhile (fun c => c ≠ '_')) hd
  simp only at hr
  rw [rev_token _ _ (fun a ha => (isDigitCh_ne a (mem_intStr hi ha)).1),
    rev_token _ _ (by decide)] at hr
  have heq : (intStr i).data = "migration".data := List.reverse_injective hr
  have hmem : 'n' ∈ (intStr i).data := by rw [heq]; decide
  exact (isDigitCh_ne 'n' (mem_intStr hi hmem)).2.2.1 rfl

theorem headName_ne_featureName (n : Int) : headName n ≠ featureName n := by
  intro h
  have hd : (headName n).data = (featureName n).data := congrArg String.data h
  rw [headName_data, featureName_data, List.append_assoc, List.append_assoc] at hd
  have := List.append_cancel_left hd
  simp at this

theorem headName_no_newline (n : Int) : '\n' ∉ (headName n).data := by
  intro h
  rw [headName_data] at h
  rcases List.mem_append.mp h with h1 | h2
  · rcases List.mem_append.mp h1 with h3 | h4
    · rcases mem_pad4 h3 with h5 | h5
      · exact (isDigitCh_ne _ h5).2.1 rfl
      · simp at h5
    · simp at h4
  · simp at h2

theorem featureName_no_newline (n : Int) : '\n' ∉ (featureName n).data := by
  intro h
  rw [featureName_data] at h
  rcases List.mem_append.mp h with h1 | h2
  · rcases List.mem_append.mp h1 with h3 | h4
    · rcases mem_pad4 h3 with h5 | h5
      · exact (isDigitCh_ne _ h5).2.1 rfl
      · simp at h5
    · simp at h4
  · simp at h2

/-! ## Lemmas: splitting on a character -/

theorem splitOnChar_ne_nil (sep : Char) (l : List Char) :
    splitOnChar sep l ≠ [] := by
  cases l with
  | nil => simp [splitOnChar]
  | cons c cs =>
    rw [splitOnChar]
    by_cases h : c = sep
    · simp [h]
    · rw [if_neg h]
      cases splitOnChar sep cs <;> simp

theorem splitOnChar_not_mem (sep : Char) (l : List Char) (hl : sep ∉ l) :
    splitOnChar sep l = [l] := by
  induction l with
  | nil => rfl
  | cons c cs ih =>
    rw [splitOnChar, if_neg (by intro h; exact hl (h ▸ List.mem_cons_self c cs)),
      ih (fun h => hl (List.mem_cons_of_mem c h))]

theorem splitOnChar_append (sep : Char) (l r : List Char) (hl : sep ∉ l) :
    splitOnChar sep (l ++ sep :: r) = l :: splitOnChar sep r := by
  induction l with
  | nil => simp [splitOnChar]
  | cons c cs ih =>
    rw [List.cons_append, splitOnChar,
      if_neg (by intro h; exact hl (h ▸ List.mem_cons_self c cs)),
      ih (fun h => hl (List.mem_cons_of_mem c h))]

/-! ## Lemmas: integer ranges -/

theorem mem_intRange {a b x : Int} : x ∈ intRange a b ↔ a ≤ x ∧ x < b := by
  rw [intRange, List.mem_map]
  constructor
  · rintro ⟨j, hj, rfl⟩
    rw [List.mem_range] at hj
    simp only [Int.ofNat_eq_coe]
    omega
  · rintro ⟨h1, h2⟩
    refine ⟨(x - a).toNat, List.mem_range.mpr (by omega), ?e⟩
    simp only [Int.ofNat_eq_coe]
    omega

theorem intRange_length (a b : Int) : (intRange a b).length = (b - a).toNat := by
  rw [intRange, List.length_map, List.length_range]

theorem intRange_nodup (a b : Int) : (intRange a b).Nodup := by
  rw [intRange]
  refine (List.nodup_range _).map (fun x y hxy => ?e)
  simp only [Int.ofNat_eq_coe] at hxy
  omega

theorem intRange_getElem? (a b : Int) (k : Nat) (hk : k < (b - a).toNat) :
    (intRange a b)[k]? = some (a + k) := by
  rw [intRange, List.getElem?_map, List.getElem?_range hk]
  rfl

/-! ## The claims -/

/-- C6: in every app generated by `create_app_with_migrations`, the head and
feature migration files carry the same sequence number `num_migrations - 1`,
while all other generated migration files carry pairwise-distinct sequence
numbers, each strictly smaller than `num_migrations - 1`. -/
theorem claim_C6_duplicate_number_signature (a : Nat) (n : Int) :
    (headRecord a n).number = n - 1 ∧ (featureRecord a n).number = n - 1 ∧
    ((chainRecords a n).map MigRecord.number).Nodup ∧
    (∀ r ∈ chainRecords a n, r.number < n - 1) := by
  refine ⟨rfl, rfl, ?nd, ?lt⟩
  · rw [chainRecords, List.map_map]
    have hc : (MigRecord.number ∘ chainRecord a) = fun i => i := by
      funext i
      rfl
    rw [hc]
    simpa using intRange_nodup 1 (n - 1)
  · intro r hr
    rw [chainRecords, List.mem_map] at hr
    obtain ⟨i, hi, rfl⟩ := hr
    have h2 := mem_intRange.mp hi
    show i < n - 1
    omega

/-- C4: for every app generated with `num_migrations ≥ 2`, the chain-pointer
file `max_migration.txt` contains exactly two candidate leaf names separated
by the standard three-way merge conflict delimiters, with the head
migration's name in the first (ours) section and the feature migration's
name in the second (theirs) section. -/
theorem claim_C4_conflict_pointer (n : Int) (_h : 2 ≤ n) :
    maxMigrationContent n = specConflictPointer (headName n) (featureName n) ∧
    splitOnChar '\n' (maxMigrationContent n).data =
      ["<<<<<<< HEAD".data, (headName n).data, "=======".data,
        (featureName n).data, ">>>>>>> feature-branch".data] ∧
    headName n ≠ featureName n := by
  refine ⟨rfl, ?split, headName_ne_featureName n⟩
  have hd : (maxMigrationContent n).data =
      "<<<<<<< HEAD".data ++ '\n' :: ((headName n).data ++ '\n' ::
        ("=======".data ++ '\n' :: ((featureName n).data ++ '\n' ::
          ">>>>>>> feature-branch".data))) := by
    rw [maxMigrationContent]
    simp only [data_append, List.append_assoc]
    rfl
  rw [hd, splitOnChar_append _ _ _ (by decide),
    splitOnChar_append _ _ _ (headName_no_newline n),
    splitOnChar_append _ _ _ (by decide),
    splitOnChar_append _ _ _ (featureName_no_newline n),
    splitOnChar_not_mem _ _ (by decide)]

/-- Witness for C4 at `num_migrations = 5`. -/
theorem claim_C4_witness :
    (2 : Int) ≤ 5 ∧
    (maxMigrationContent 5 = specConflictPointer (headName 5) (featureName 5) ∧
    splitOnChar '\n' (maxMigrationContent 5).data =
      ["<<<<<<< HEAD".data, (headName 5).data, "=======".data,
        (featureName 5).data, ">>>>>>> feature-branch".data] ∧
    headName 5 ≠ featureName 5) :=
  ⟨by norm_num, claim_C4_conflict_pointer 5 (by norm_num)⟩

/-- C5: for every `num_migrations ≥ 3`, exactly two generated migration
files — the head and the feature migration — declare the migration numbered
`num_migrations - 2` of the same app as their sole dependency (and that
migration is indeed generated, with the matching name), and no generated
migration file declares a dependency on either of the two conflicting
files. -/
theorem claim_C5_divergence_candidate (a : Nat) (n : Int) (h : 3 ≤ n) :
    (appMigrations a n).filter
        (fun r => r.dependencies = [(appName a, migName (n - 2))]) =
      [headRecord a n, featureRecord a n] ∧
    (∃ r ∈ chainRecords a n, r.number = n - 2 ∧ r.migname = migName (n - 2)) ∧
    (∀ r ∈ appMigrations a n, ∀ d ∈ r.dependencies,
      d.2 ≠ headName n ∧ d.2 ≠ featureName n) := by
  have hsub : n - 1 - 1 = n - 2 := by omega
  refine ⟨?filter, ?exists_chain, ?nodep⟩
  · rw [appMigrations, List.filter_append]
    have h1 : (chainRecords a n).filter
        (fun r => r.dependencies = [(appName a, migName (n - 2))]) = [] := by
      rw [List.filter_eq_nil_iff]
      intro r hr
      rw [chainRecords, List.mem_map] at hr
      obtain ⟨i, hi, rfl⟩ := hr
      have h2 := mem_intRange.mp hi
      simp only [chainRecord, decide_eq_true_eq]
      by_cases h3 : i = 1
      · subst h3
        simp
      · rw [if_neg h3]
        intro heq
        rw [List.cons.injEq, Prod.mk.injEq] at heq
        have h4 := migName_inj (show (0:Int) ≤ i - 1 by omega)
          (show (0:Int) ≤ n - 2 by omega) heq.1.2
        omega
    have h2 : (headRecord a n).dependencies =
        [(appName a, migName (n - 2))] := by
      rw [headRecord, hsub]
    have h3 : (featureRecord a n).dependencies =
        [(appName a, migName (n - 2))] := by
      rw [featureRecord, hsub]
    rw [h1, List.nil_append, List.filter_cons_of_pos (by simpa using h2),
      List.filter_cons_of_pos (by simpa using h3), List.filter_nil]
  · refine ⟨chainRecord a (n - 2), ?mem, rfl, rfl⟩
    rw [chainRecords, List.mem_map]
    exact ⟨n - 2, mem_intRange.mpr ⟨by omega, by omega⟩, rfl⟩
  · intro r hr d hd
    rw [appMigrations, List.mem_append] at hr
    rcases hr with hr | hr
    · rw [chainRecords, List.mem_map] at hr
      obtain ⟨i, hi, rfl⟩ := hr
      have h2 := mem_intRange.mp hi
      rw [chainRecord] at hd
      by_cases h3 : i = 1
      · subst h3
        simp at hd
      · simp only [if_neg h3, List.mem_singleton] at hd
        subst hd
        exact ⟨migName_ne_headName (by omega), migName_ne_featureName (by omega)⟩
    · simp only [List.mem_cons, List.mem_singleton, List.not_mem_nil,
        or_false] at hr
      have hdep : d = (appName a, migName (n - 1 - 1)) := by
        rcases hr with hr | hr
        · subst hr
          simpa [headRecord] using hd
        · subst hr
          simpa [featureRecord] using hd
      subst hdep
      exact ⟨migName_ne_headName (by omega), migName_ne_featureName (by omega)⟩

/-- Witness for C5 at `num_migrations = 5`, app 1. -/
theorem claim_C5_witness :
    (3 : Int) ≤ 5 ∧
    ((appMigrations 1 5).filter
        (fun r => r.dependencies = [(appName 1, migName (5 - 2))]) =
      [headRecord 1 5, featureRecord 1 5] ∧
    (∃ r ∈ chainRecords 1 5, r.number = 5 - 2 ∧ r.migname = migName (5 - 2)) ∧
    (∀ r ∈ appMigrations 1 5, ∀ d ∈ r.dependencies,
      d.2 ≠ headName 5 ∧ d.2 ≠ featureName 5)) :=
  ⟨by norm_num, claim_C5_divergence_candidate 1 5 (by norm_num)⟩

/-- Rendering a one-element dependency list. -/
theorem depsStr_singleton (d : String × String) : depsStr [d] = depPairStr d := rfl

/-- C7: for every `num_migrations ≥ 3`, the non-conflicting prefix of a
generated app is a single chain: the chain loop writes migration `i` at
position `i - 1`, migration `0001` declares an empty dependency list, and
each migration `i` with `2 ≤ i ≤ num_migrations - 2` declares exactly one
dependency, the (unit-name, migration-name) pair naming migration `i - 1`
of the same app, rendered inside the file's `dependencies = [...]`
declaration (`contentPre` ends with `dependencies = [` and `contentMid`
opens with `]`). -/
theorem claim_C7_chain_prefix (a : Nat) (n : Int) (h : 3 ≤ n) :
    (∀ i : Int, 1 ≤ i → i ≤ n - 2 →
      (chainRecords a n)[(i - 1).toNat]? = some (chainRecord a i)) ∧
    (chainRecord a 1).dependencies = [] ∧
    (∀ i : Int, 2 ≤ i → i ≤ n - 2 →
      (chainRecord a i).dependencies = [(appName a, migName (i - 1))] ∧
      (chainRecord a i).migname = migName i ∧
      (chainRecord a i).filename = migName i ++ ".py" ∧
      (chainRecord a i).content =
        contentPre ++ depPairStr (appName a, migName (i - 1)) ++ contentMid ++
          pad4 i ++ contentPost) := by
  refine ⟨?index, rfl, ?deps⟩
  · intro i h1 h2
    rw [chainRecords, List.getElem?_map,
      intRange_getElem? 1 (n - 1) (i - 1).toNat (by omega)]
    have he : (1 : Int) + ((i - 1).toNat : Int) = i := by omega
    rw [he]
    rfl
  · intro i h1 h2
    have h3 : i ≠ 1 := by omega
    refine ⟨?d1, rfl, rfl, ?d2⟩
    · show (if i = 1 then [] else [(appName a, migName (i - 1))]) =
        [(appName a, migName (i - 1))]
      rw [if_neg h3]
    · show create_migration_file i
        (if i = 1 then [] else [(appName a, migName (i - 1))]) = _
      rw [if_neg h3, create_migration_file, depsStr_singleton]

/-- Witness for C7 at `num_migrations = 5`, app 1. -/
theorem claim_C7_witness :
    (3 : Int) ≤ 5 ∧
    ((∀ i : Int, 1 ≤ i → i ≤ 5 - 2 →
      (chainRecords 1 5)[(i - 1).toNat]? = some (chainRecord 1 i)) ∧
    (chainRecord 1 1).dependencies = [] ∧
    (∀ i : Int, 2 ≤ i → i ≤ 5 - 2 →
      (chainRecord 1 i).dependencies = [(appName 1, migName (i - 1))] ∧
      (chainRecord 1 i).migname = migName i ∧
      (chainRecord 1 i).filename = migName i ++ ".py" ∧
      (chainRecord 1 i).content =
        contentPre ++ depPairStr (appName 1, migName (i - 1)) ++ contentMid ++
          pad4 i ++ contentPost)) :=
  ⟨by norm_num, claim_C7_chain_prefix 1 5 (by norm_num)⟩

/-- The sum of a constant map. -/
theorem sum_map_const {α : Type} (l : List α) (c : Nat) :
    (l.map (fun _ => c)).sum = l.length * c := by
  induction l with
  | nil => simp
  | cons x t ih =>
    rw [List.map_cons, List.sum_cons, ih, List.length_cons]
    ring

/-- C10: for every `num_migrations ≥ 2`, `create_app_with_migrations` writes
exactly `num_migrations` numbered migration files — `num_migrations - 2`
chain files plus the two conflicting files — and `main` creates exactly
`args.apps` app directories named `app0001`, `app0002`, ..., so the tree
holds `args.apps * args.migrations` numbered migration files in total. -/
theorem claim_C10_counts (apps : Nat) (n : Int) (h : 2 ≤ n) :
    (mainApps apps n).length = apps ∧
    (∀ j : Nat, j < apps →
      (mainApps apps n)[j]? = some (appName (j + 1), appMigrations (j + 1) n)) ∧
    (∀ a : Nat, (chainRecords a n).length = (n - 2).toNat ∧
      (appMigrations a n).length = (n - 2).toNat + 2 ∧
      (appMigrations a n).length = n.toNat) ∧
    ((mainApps apps n).map (fun x => x.2.length)).sum = apps * n.toNat := by
  have hchain : ∀ a : Nat, (chainRecords a n).length = (n - 2).toNat := by
    intro a
    rw [chainRecords, List.length_map, intRange_length]
    omega
  have happ : ∀ a : Nat, (appMigrations a n).length = n.toNat := by
    intro a
    rw [appMigrations, List.length_append, hchain a]
    simp only [List.length_cons, List.length_nil]
    omega
  refine ⟨?len, ?idx, ?per, ?total⟩
  · rw [mainApps, List.length_map, List.length_range]
  · intro j hj
    rw [mainApps, List.getElem?_map, List.getElem?_range hj]
    rfl
  · intro a
    refine ⟨hchain a, ?mid, happ a⟩
    rw [appMigrations, List.length_append, hchain a]
    simp only [List.length_cons, List.length_nil]
  · rw [mainApps, List.map_map]
    have hc : ((fun x : String × List MigRecord => x.2.length) ∘
        fun j => (appName (j + 1), appMigrations (j + 1) n)) =
        fun _ : Nat => n.toNat := by
      funext j
      exact happ (j + 1)
    rw [hc, sum_map_const, List.length_range]

/-- Witness for C10 at `apps = 2`, `num_migrations = 3`. -/
theorem claim_C10_witness :
    (2 : Int) ≤ 3 ∧
    ((mainApps 2 3).length = 2 ∧
    (∀ j : Nat, j < 2 →
      (mainApps 2 3)[j]? = some (appName (j + 1), appMigrations (j + 1) 3)) ∧
    (∀ a : Nat, (chainRecords a 3).length = ((3 : Int) - 2).toNat ∧
      (appMigrations a 3).length = ((3 : Int) - 2).toNat + 2 ∧
      (appMigrations a 3).length = (3 : Int).toNat) ∧
    ((mainApps 2 3).map (fun x => x.2.length)).sum = 2 * (3 : Int).toNat) :=
  ⟨by norm_num, claim_C10_counts 2 3 (by norm_num)⟩

/-- C1: the public interface is exactly `__all__ = [execute, dry_run,
execute_for_app, dry_run_for_app]`, and for every path argument each of the
four functions forwards the path — normalized by `_expand_path` — and its
flags unchanged to the engine call `run_rebase` or
`run_rebase_for_one_app` (the apply variants with the dry-run flag `False`,
the preview variants with `True`; the single-app variants take no scan-mode
flag, matching the single-app engine call). -/
theorem claim_C1_entry_points :
    moduleAll = ["execute", "dry_run", "execute_for_app", "dry_run_for_app"] ∧
    ∀ (env : PathEnv) (p : String) (a j : Bool),
      execute env p a = EngineCall.runRebase (_expand_path env p) false a false ∧
      dry_run env p a j = EngineCall.runRebase (_expand_path env p) true a j ∧
      execute_for_app env p =
        EngineCall.runRebaseForOneApp (_expand_path env p) false false ∧
      dry_run_for_app env p j =
        EngineCall.runRebaseForOneApp (_expand_path env p) true j :=
  ⟨rfl, fun _ _ _ _ => ⟨rfl, rfl, rfl, rfl⟩⟩

/-- C9: the apply entry points never request structured output — `execute`
and `execute_for_app` always invoke the engine with the JSON flag fixed to
`False` — while the preview entry points forward their `json` argument, so
output-format selection is possible only in preview mode. -/
theorem claim_C9_json_only_in_preview :
    ∀ (env : PathEnv) (p : String) (a j : Bool),
      (execute env p a).jsonFlag = false ∧
      (execute_for_app env p).jsonFlag = false ∧
      (dry_run env p a j).jsonFlag = j ∧
      (dry_run_for_app env p j).jsonFlag = j :=
  fun _ _ _ _ => ⟨rfl, rfl, rfl, rfl⟩

/-- C2: against the engine modelled from the spec, each of the four public
functions returns `None` (`Except.ok ()`) exactly when the engine completes
and raises a `RuntimeError` (`Except.error`) exactly when it does not; no
other outcome is possible. -/
theorem claim_C2_runtime_error (σ π : Type) (E : EngineModel σ π)
    (env : PathEnv) (fs : σ) (p : String) (a j : Bool) :
    ((executeSem E env fs p a).2 = Except.ok () ∨
      ∃ e : RuntimeError, (executeSem E env fs p a).2 = Except.error e) ∧
    ((dry_runSem E env fs p a j).2 = Except.ok () ∨
      ∃ e : RuntimeError, (dry_runSem E env fs p a j).2 = Except.error e) ∧
    ((execute_for_appSem E env fs p).2 = Except.ok () ∨
      ∃ e : RuntimeError, (execute_for_appSem E env fs p).2 = Except.error e) ∧
    ((dry_run_for_appSem E env fs p j).2 = Except.ok () ∨
      ∃ e : RuntimeError, (dry_run_for_appSem E env fs p j).2 = Except.error e) ∧
    ((executeSem E env fs p a).2 = Except.ok () ↔
      E.completes fs (_expand_path env p)) ∧
    ((dry_runSem E env fs p a j).2 = Except.ok () ↔
      E.completes fs (_expand_path env p)) ∧
    ((execute_for_appSem E env fs p).2 = Except.ok () ↔
      E.completes fs (_expand_path env p)) ∧
    ((dry_run_for_appSem E env fs p j).2 = Except.ok () ↔
      E.completes fs (_expand_path env p)) := by
  rw [executeSem, dry_runSem, execute_for_appSem, dry_run_for_appSem,
    run_rebase, run_rebase, run_rebase_for_one_app, run_rebase_for_one_app]
  by_cases hc : E.completes fs (_expand_path env p) <;>
    simp [hc]

/-- C3: the preview entry points pass the dry-run flag as `True` and the
apply entry points as `False`, and against the engine modelled from the
spec a preview run leaves the filesystem state — in particular the
migration tree under the given path — unchanged. -/
theorem claim_C3_preview_no_mutation (σ π : Type) (E : EngineModel σ π)
    (env : PathEnv) (fs : σ) (p : String) (a j : Bool) :
    (dry_run env p a j).dryRunFlag = true ∧
    (dry_run_for_app env p j).dryRunFlag = true ∧
    (execute env p a).dryRunFlag = false ∧
    (execute_for_app env p).dryRunFlag = false ∧
    (dry_runSem E env fs p a j).1 = fs ∧
    (dry_run_for_appSem E env fs p j).1 = fs := by
  refine ⟨rfl, rfl, rfl, rfl, ?s1, ?s2⟩
  · rw [dry_runSem, run_rebase]
    by_cases hc : E.completes fs (_expand_path env p) <;> simp [hc]
  · rw [dry_run_for_appSem, run_rebase_for_one_app]
    by_cases hc : E.completes fs (_expand_path env p) <;> simp [hc]

/-! ## Lemmas: path normalization -/

theorem mem_splitOnChar {sep : Char} {l g : List Char}
    (hg : g ∈ splitOnChar sep l) : sep ∉ g := by
  induction l generalizing g with
  | nil =>
    rw [splitOnChar] at hg
    rw [List.mem_singleton] at hg
    subst hg
    simp
  | cons c cs ih =>
    rw [splitOnChar] at hg
    by_cases h : c = sep
    · rw [if_pos h] at hg
      rcases List.mem_cons.mp hg with h1 | h1
      · subst h1; simp
      · exact ih h1
    · rw [if_neg h] at hg
      cases hsp : splitOnChar sep cs with
      | nil => exact absurd hsp (splitOnChar_ne_nil sep cs)
      | cons g0 gs =>
        rw [hsp] at hg
        rcases List.mem_cons.mp hg with h1 | h1
        · subst h1
          intro hmem
          rcases List.mem_cons.mp hmem with h2 | h2
          · exact h h2.symm
          · exact ih (hsp ▸ List.mem_cons_self g0 gs) h2
        · exact ih (hsp ▸ List.mem_cons_of_mem g0 h1)

theorem joinSlash_cons_cons (g g2 : List Char) (gs2 : List (List Char)) :
    joinSlash (g :: g2 :: gs2) = g ++ '/' :: joinSlash (g2 :: gs2) := by
  rw [joinSlash]
  exact List.cons_ne_nil g2 gs2

theorem splitSlash_joinSlash (l : List (List Char)) (hne : l ≠ [])
    (hl : ∀ g ∈ l, '/' ∉ g) : splitSlash (joinSlash l) = l := by
  induction l with
  | nil => contradiction
  | cons g gs ih =>
    cases gs with
    | nil =>
      show splitOnChar '/' (joinSlash [g]) = [g]
      rw [joinSlash]
      exact splitOnChar_not_mem '/' g (hl g (List.mem_cons_self g []))
    | cons g2 gs2 =>
      show splitOnChar '/' (joinSlash (g :: g2 :: gs2)) = g :: g2 :: gs2
      rw [joinSlash_cons_cons]
      rw [splitOnChar_append '/' g (joinSlash (g2 :: gs2))
        (hl g (List.mem_cons_self g _))]
      have ih2 := ih (List.cons_ne_nil g2 gs2)
        (fun x hx => hl x (List.mem_cons_of_mem g hx))
      rw [splitSlash] at ih2
      rw [ih2]

theorem splitSlash_replicate_slash (k : Nat) (l : List Char) :
    splitSlash (List.replicate k '/' ++ l) =
      List.replicate k [] ++ splitSlash l := by
  induction k with
  | zero => rfl
  | succ m ih =>
    rw [List.replicate_succ, List.cons_append, List.replicate_succ,
      List.cons_append]
    show splitOnChar '/' ('/' :: (List.replicate m '/' ++ l)) = _
    rw [splitOnChar, if_pos rfl]
    rw [splitSlash] at ih
    rw [ih]
    rfl

theorem normLoop_nil (b : Bool) (acc : List (List Char)) :
    normLoop b acc [] = acc.reverse := by
  rw [normLoop]

theorem normLoop_replicate_nil (b : Bool) (k : Nat)
    (acc : List (List Char)) (comps : List (List Char)) :
    normLoop b acc (List.replicate k [] ++ comps) = normLoop b acc comps := by
  induction k with
  | zero => rfl
  | succ m ih =>
    rw [List.replicate_succ, List.cons_append, normLoop,
      if_pos (Or.inl rfl)]
    exact ih

theorem normLoop_good (comps : List (List Char)) :
    ∀ acc, (∀ g ∈ acc, GoodComp g) → (∀ g ∈ comps, '/' ∉ g) →
      ∀ g ∈ normLoop true acc comps, GoodComp g := by
  induction comps with
  | nil =>
    intro acc hacc _ g hg
    rw [normLoop_nil] at hg
    exact hacc g (List.mem_reverse.mp hg)
  | cons c cs ih =>
    intro acc hacc hch g hg
    rw [normLoop] at hg
    by_cases h1 : c = [] ∨ c = ['.']
    · rw [if_pos h1] at hg
      exact ih acc hacc (fun x hx => hch x (List.mem_cons_of_mem c hx)) g hg
    · rw [if_neg h1] at hg
      by_cases h2 : c ≠ ['.', '.'] ∨ (true = false ∧ acc = []) ∨
          acc.head? = some ['.', '.']
      · rw [if_pos h2] at hg
        refine ih (c :: acc) ?hgood
          (fun x hx => hch x (List.mem_cons_of_mem c hx)) g hg
        intro g2 hg2
        rcases List.mem_cons.mp hg2 with h3 | h3
        · subst h3
          have hcdd : g2 ≠ ['.', '.'] := by
            rcases h2 with h4 | h4 | h4
            · exact h4
            · exact absurd h4.1 (by simp)
            · cases hacc2 : acc with
              | nil => rw [hacc2] at h4; simp at h4
              | cons a0 as =>
                rw [hacc2] at h4
                simp only [List.head?_cons, Option.some.injEq] at h4
                exact absurd h4
                  ((hacc a0 (hacc2 ▸ List.mem_cons_self a0 as)).2.2.1 ·)
          exact ⟨fun h => h1 (Or.inl h), fun h => h1 (Or.inr h), hcdd,
            hch g2 (List.mem_cons_self g2 cs)⟩
        · exact hacc g2 h3
      · rw [if_neg h2] at hg
        refine ih acc.tail ?htail
          (fun x hx => hch x (List.mem_cons_of_mem c hx)) g hg
        intro g2 hg2
        exact hacc g2 (List.mem_of_mem_tail hg2)

theorem normLoop_good_id (comps : List (List Char))
    (h : ∀ g ∈ comps, GoodComp g) :
    ∀ acc, normLoop true acc comps = acc.reverse ++ comps := by
  induction comps with
  | nil =>
    intro acc
    rw [normLoop_nil, List.append_nil]
  | cons c cs ih =>
    intro acc
    have hc := h c (List.mem_cons_self c cs)
    rw [normLoop, if_neg (by push_neg; exact ⟨hc.1, hc.2.1⟩),
      if_pos (Or.inl hc.2.2.1),
      ih (fun x hx => h x (List.mem_cons_of_mem c hx)) (c :: acc)]
    rw [List.reverse_cons, List.append_assoc]
    rfl

theorem initSlashes_pos (cs : List Char) (h : cs.head? = some '/') :
    initSlashes cs = 1 ∨ initSlashes cs = 2 := by
  rw [initSlashes, if_pos h]
  by_cases h2 : cs.take 3 ≠ ['/', '/', '/'] ∧ cs.take 2 = ['/', '/']
  · rw [if_pos h2]
    exact Or.inr rfl
  · rw [if_neg h2]
    exact Or.inl rfl

theorem normpathL_eq (cs : List Char) (hne : cs ≠ []) :
    normpathL cs =
      if (List.replicate (initSlashes cs) '/' ++
          joinSlash (normLoop (decide (initSlashes cs ≠ 0)) []
            (splitSlash cs))) = []
      then ['.']
      else List.replicate (initSlashes cs) '/' ++
        joinSlash (normLoop (decide (initSlashes cs ≠ 0)) []
          (splitSlash cs)) := by
  rw [normpathL, if_neg hne]

theorem normpathL_normalAbs (cs : List Char) (h : cs.head? = some '/') :
    NormalAbs (normpathL cs) := by
  have hne : cs ≠ [] := by
    intro h2
    rw [h2] at h
    cases h
  rw [normpathL_eq cs hne]
  have hk := initSlashes_pos cs h
  have hkk : decide (initSlashes cs ≠ 0) = true := by
    rcases hk with hk | hk <;> rw [hk] <;> rfl
  rw [hkk]
  have hgood : ∀ g ∈ normLoop true [] (splitSlash cs), GoodComp g :=
    normLoop_good (splitSlash cs) [] (fun g hg => absurd hg (List.not_mem_nil g))
      (fun g hg => mem_splitOnChar hg)
  have hne2 : (List.replicate (initSlashes cs) '/' ++
      joinSlash (normLoop true [] (splitSlash cs))) ≠ [] := by
    rcases hk with hk | hk <;> rw [hk] <;> simp
  rw [if_neg hne2]
  exact ⟨initSlashes cs, normLoop true [] (splitSlash cs), hk, rfl, hgood⟩

theorem normalAbs_head {cs : List Char} (h : NormalAbs cs) :
    cs.head? = some '/' := by
  obtain ⟨k, nc, hk, rfl, _⟩ := h
  rcases hk with rfl | rfl <;> rfl

theorem normpathL_id {cs : List Char} (h : NormalAbs cs) : normpathL cs = cs := by
  obtain ⟨k, nc, hk, rfl, hg⟩ := h
  cases nc with
  | nil =>
    rcases hk with rfl | rfl <;> decide
  | cons g gs =>
    have hgg := hg g (List.mem_cons_self g gs)
    obtain ⟨g0, gt, rfl⟩ : ∃ g0 gt, g = g0 :: gt := by
      cases g with
      | nil => exact absurd rfl hgg.1
      | cons a b => exact ⟨a, b, rfl⟩
    have hg0 : g0 ≠ '/' := fun h2 => hgg.2.2.2 (h2 ▸ List.mem_cons_self g0 gt)
    have hj : ∃ t, joinSlash ((g0 :: gt) :: gs) = (g0 :: gt) ++ t := by
      cases gs with
      | nil => exact ⟨[], (List.append_nil _).symm⟩
      | cons g2 gs2 => exact ⟨'/' :: joinSlash (g2 :: gs2), joinSlash_cons_cons _ _ _⟩
    obtain ⟨t, hj⟩ := hj
    have hne : (List.replicate k '/' ++ joinSlash ((g0 :: gt) :: gs)) ≠ [] := by
      rcases hk with rfl | rfl <;> simp
    have hin : initSlashes (List.replicate k '/' ++ joinSlash ((g0 :: gt) :: gs)) = k := by
      rw [hj]
      rcases hk with rfl | rfl
      · show initSlashes ('/' :: (g0 :: (gt ++ t))) = 1
        rw [initSlashes,
          if_pos (show ('/' :: (g0 :: (gt ++ t))).head? = some '/' from rfl),
          if_neg]
        intro hc
        apply hg0
        have h2 := hc.2
        rw [show ('/' :: (g0 :: (gt ++ t))).take 2 = ['/', g0] from rfl] at h2
        simpa using h2
      · show initSlashes ('/' :: ('/' :: (g0 :: (gt ++ t)))) = 2
        rw [initSlashes,
          if_pos (show ('/' :: ('/' :: (g0 :: (gt ++ t)))).head? = some '/' from rfl),
          if_pos]
        constructor
        · intro h2
          rw [show ('/' :: ('/' :: (g0 :: (gt ++ t)))).take 3 =
            ['/', '/', g0] from rfl] at h2
          apply hg0
          simpa using h2
        · rfl
    have hdec : decide (k ≠ 0) = true := by
      rcases hk with rfl | rfl <;> rfl
    have hsp : splitSlash (List.replicate k '/' ++ joinSlash ((g0 :: gt) :: gs)) =
        List.replicate k [] ++ ((g0 :: gt) :: gs) := by
      rw [splitSlash_replicate_slash,
        splitSlash_joinSlash _ (List.cons_ne_nil _ _)
          (fun x hx => (hg x hx).2.2.2)]
    have hnl : normLoop true [] (List.replicate k [] ++ ((g0 :: gt) :: gs)) =
        (g0 :: gt) :: gs := by
      rw [normLoop_replicate_nil, normLoop_good_id _ hg []]
      rfl
    rw [normpathL_eq _ hne, hin, hdec, hsp, hnl, if_neg hne]

theorem head?_append_of_head {l : List Char} (x : List Char) {a : Char}
    (h : l.head? = some a) : (l ++ x).head? = some a := by
  cases l with
  | nil => cases h
  | cons c cs => exact h

theorem isAbsL_iff (cs : List Char) : isAbsL cs = true ↔ cs.head? = some '/' := by
  rw [isAbsL]
  exact decide_eq_true_iff

theorem abspathL_normalAbs (cwd cs : List Char)
    (hcwd : cwd.head? = some '/') : NormalAbs (abspathL cwd cs) := by
  rw [abspathL]
  by_cases h : isAbsL cs
  · rw [if_pos h]
    exact normpathL_normalAbs cs ((isAbsL_iff cs).mp h)
  · rw [if_neg h]
    apply normpathL_normalAbs
    rw [joinL, if_neg h]
    by_cases h2 : cwd = [] ∨ cwd.getLast? = some '/'
    · rw [if_pos h2]
      exact head?_append_of_head cs hcwd
    · rw [if_neg h2]
      exact head?_append_of_head ('/' :: cs) hcwd

theorem expanduserL_of_not_tilde (env : PathEnv) {cs : List Char}
    (h : cs.head? ≠ some '~') : expanduserL env cs = cs := by
  rw [expanduserL, if_neg h]

theorem _expand_path_data (env : PathEnv) (p : String) :
    (_expand_path env p).data = abspathL env.cwd (expanduserL env p.data) := rfl

theorem _expand_path_normalAbs (env : PathEnv)
    (hcwd : env.cwd.head? = some '/') (p : String) :
    NormalAbs (_expand_path env p).data := by
  rw [_expand_path_data]
  exact abspathL_normalAbs env.cwd (expanduserL env p.data) hcwd

/-- C8: `_expand_path` always returns an absolute path, it is idempotent,
and every public entry point passes the engine this normalized path rather
than the caller's raw argument.  The environment hypothesis is that the
working directory reported by `os.getcwd` is absolute, as POSIX
guarantees.  (Tilde expansion against the home directory and resolution of
relative paths against the working directory are how `_expand_path` is
defined: `expanduserL` followed by `abspathL`.) -/
theorem claim_C8_expand_path (env : PathEnv)
    (hcwd : env.cwd.head? = some '/') (p : String) :
    (_expand_path env p).data.head? = some '/' ∧
    _expand_path env (_expand_path env p) = _expand_path env p ∧
    ∀ a j : Bool,
      (execute env p a).path = _expand_path env p ∧
      (dry_run env p a j).path = _expand_path env p ∧
      (execute_for_app env p).path = _expand_path env p ∧
      (dry_run_for_app env p j).path = _expand_path env p := by
  have h1 := _expand_path_normalAbs env hcwd p
  have habs : (_expand_path env p).data.head? = some '/' := normalAbs_head h1
  refine ⟨habs, ?idem, fun a j => ⟨rfl, rfl, rfl, rfl⟩⟩
  have h2 : expanduserL env (_expand_path env p).data = (_expand_path env p).data :=
    expanduserL_of_not_tilde env (by rw [habs]; simp)
  have h3 : _expand_path env (_expand_path env p) =
      String.mk (normpathL (_expand_path env p).data) := by
    rw [_expand_path]
    show String.mk (abspathL env.cwd (expanduserL env (_expand_path env p).data)) = _
    rw [h2, abspathL, if_pos ((isAbsL_iff _).mpr habs)]
  rw [h3, normpathL_id h1]

/-- Witness for C8: home unset, working directory `/`, raw path `"a"`. -/
theorem claim_C8_witness :
    (PathEnv.mk none (fun _ => none) ['/']).cwd.head? = some '/' ∧
    ((_expand_path (PathEnv.mk none (fun _ => none) ['/']) "a").data.head? = some '/' ∧
    _expand_path (PathEnv.mk none (fun _ => none) ['/'])
        (_expand_path (PathEnv.mk none (fun _ => none) ['/']) "a") =
      _expand_path (PathEnv.mk none (fun _ => none) ['/']) "a" ∧
    ∀ a j : Bool,
      (execute (PathEnv.mk none (fun _ => none) ['/']) "a" a).path =
        _expand_path (PathEnv.mk none (fun _ => none) ['/']) "a" ∧
      (dry_run (PathEnv.mk none (fun _ => none) ['/']) "a" a j).path =
        _expand_path (PathEnv.mk none (fun _ => none) ['/']) "a" ∧
      (execute_for_app (PathEnv.mk none (fun _ => none) ['/']) "a").path =
        _expand_path (PathEnv.mk none (fun _ => none) ['/']) "a" ∧
      (dry_run_for_app (PathEnv.mk none (fun _ => none) ['/']) "a" j).path =
        _expand_path (PathEnv.mk none (fun _ => none) ['/']) "a") :=
  ⟨rfl, claim_C8_expand_path (PathEnv.mk none (fun _ => none) ['/']) rfl "a"⟩
